import Mathlib

/-!
# codecbench: the synthetic mesh, the round-up of the filter element count, and the codec contracts

Shallow embedding of `tools/codecbench.cpp`.

* `murmur3`, the two generation loops of `main` and the element-count round-up of
  `benchFilters` are translated from the source.
* C `int` expressions (all operands are non-negative) are written in exact arithmetic and
  reduced modulo `2 ^ 32` where the source converts them to `uint32_t` / `unsigned int`
  (the argument of `murmur3`, the argument of `push_back`): the value is exact as long as
  the expression does not overflow `int`, and beyond that it is the value obtained when
  signed overflow wraps around.  `size_t` arithmetic is reduced modulo `2 ^ w`, `w` being
  the width of `size_t` on the target.
* A `std::vector` that cannot obtain its storage throws; `main_buffers` and `benchFilters`
  return `none` for such a run, the allocator being a parameter.
* The codec entry points called by `benchCodecs` are defined outside this file of the
  repository; they are modelled from the description of the engine.
-/

namespace CodecBench

/-! ## Machine integers -/

/-- Conversion to `uint32_t` / `unsigned int`. -/
def toU32 (n : Nat) : Nat := n % 2 ^ 32

/-- Conversion to `uint16_t` (the store into `Vertex::data`). -/
def toU16 (n : Nat) : Nat := n % 2 ^ 16

/-- Conversion to a `size_t` of `w` bits. -/
def toSize (w n : Nat) : Nat := n % 2 ^ w

/-- The largest value of a C `int`. -/
def INT_MAX : Nat := 2 ^ 31 - 1

/-- The constant `const int N = 1000` of `main`. -/
def main_N : Nat := 1000

/-! ## `murmur3` -/

/-- The function `uint32_t murmur3(uint32_t h)`: every product is taken modulo `2 ^ 32`. -/
def murmur3 (h : Nat) : Nat :=
  let h1 := h ^^^ (h >>> 16)
  let h2 := toU32 (h1 * 0x85ebca6b)
  let h3 := h2 ^^^ (h2 >>> 13)
  let h4 := toU32 (h3 * 0xc2b2ae35)
  h4 ^^^ (h4 >>> 16)

/-! ## The vertex loop of `main` -/

/-- The record `struct Vertex { uint16_t data[16]; }`. -/
structure Vertex where
  data : List Nat
deriving DecidableEq, Repr

/-- The hash `h` of the innermost loop: `murmur3((x * (N + 1) + y) * 16 + k)`. -/
def wordHash (N x y k : Nat) : Nat :=
  murmur3 (toU32 ((x * (N + 1) + y) * 16 + k))

/-- The right-hand side `h & ((1 << k) - 1)` before it is stored. -/
def wordValue (N x y k : Nat) : Nat :=
  wordHash N x y k &&& ((1 <<< k) - 1)

/-- The vertex built by the body of the `y` loop: `v.data[k] = h & ((1 << k) - 1)` for
`k = 0 .. 15`, each value narrowed to `uint16_t` by the store. -/
def vertexAt (N x y : Nat) : Vertex :=
  ⟨(List.range 16).map (fun k => toU16 (wordValue N x y k))⟩

/-- The vector `vertices` after the loops `for x in 0 ..= N`, `for y in 0 ..= N`. -/
def vertices (N : Nat) : List Vertex :=
  (List.range (N + 1)).flatMap (fun x => (List.range (N + 1)).map (fun y => vertexAt N x y))

/-! ## The index loop of `main` -/

/-- The six values pushed for the cell `(x, y)`, each converted to `unsigned int`. -/
def cellIndices (N x y : Nat) : List Nat :=
  [ toU32 ((x + 0) * N + (y + 0)),
    toU32 ((x + 1) * N + (y + 0)),
    toU32 ((x + 0) * N + (y + 1)),
    toU32 ((x + 0) * N + (y + 1)),
    toU32 ((x + 1) * N + (y + 0)),
    toU32 ((x + 1) * N + (y + 1)) ]

/-- The vector `indices` after the loops `for x in 0 .. N`, `for y in 0 .. N`. -/
def indices (N : Nat) : List Nat :=
  (List.range N).flatMap (fun x => (List.range N).flatMap (fun y => cellIndices N x y))

/-- Position in `vertices` of the vertex pushed in iteration `x = i`, `y = j`. -/
def gridPos (N i j : Nat) : Nat := i * (N + 1) + j

/-- The indices of the cell `(x, y)` of a regular grid over the generated vertices: the
triangles `(x,y) (x+1,y) (x,y+1)` and `(x,y+1) (x+1,y) (x+1,y+1)`, each corner given by its
position in `vertices`.  This is the grid of the end-to-end scenario, to be compared with
`cellIndices`. -/
def gridCellIndices (N x y : Nat) : List Nat :=
  [ gridPos N x y, gridPos N (x + 1) y, gridPos N x (y + 1),
    gridPos N x (y + 1), gridPos N (x + 1) y, gridPos N (x + 1) (y + 1) ]

/-! ## `benchFilters` -/

/-- The value `count4 = (count + 3) & ~3` for a `size_t` of `w` bits: `~3` is the `int`
`-4`, which converts to `size_t` as `2 ^ w - 4`. -/
def count4 (w count : Nat) : Nat :=
  toSize w (count + 3) &&& (2 ^ w - 4)

/-- The largest number of bytes a `std::vector` can hold when `size_t` has `w` bits
(`max_size()` times the element size): `PTRDIFF_MAX`. -/
def vectorMaxBytes (w : Nat) : Nat := 2 ^ (w - 1) - 1

/-- Whether a `std::vector` obtains storage of `bytes` bytes, through its sizing constructor
or through `reserve`: a request above `max_size()` throws `std::length_error`, and a
non-empty request that the allocator `alloc` of the run cannot serve throws
`std::bad_alloc`. -/
def vectorStorage (w : Nat) (alloc : Nat → Bool) (bytes : Nat) : Bool :=
  decide (bytes ≤ vectorMaxBytes w) && (bytes == 0 || alloc bytes)

/-- An allocator that serves every request of at most `limit` bytes. -/
def allocUpTo (limit : Nat) : Nat → Bool := fun bytes => decide (bytes ≤ limit)

/-- The `size_t` argument `count4 * 4` of the constructor of `d4`. -/
def d4Request (w count : Nat) : Nat := toSize w (count4 w count * 4)

/-- The `size_t` argument `count4 * 8` of the constructor of `d8`. -/
def d8Request (w count : Nat) : Nat := toSize w (count4 w count * 8)

/-- The state of `benchFilters` when it calls the filters: the element count `count4` it
passes, and the sizes of `d4` and `d8`. -/
structure FilterBuffers where
  count4 : Nat
  d4 : Nat
  d8 : Nat
deriving DecidableEq, Repr

/-- The function `benchFilters` up to its filter calls: `count4` is computed, `d4` and `d8`
are constructed with `count4 * 4` and `count4 * 8` elements, and the filters are called on
them with `count4`.  The result is `none` when a constructor throws, in which case no
filter is called. -/
def benchFilters (w : Nat) (alloc : Nat → Bool) (count : Nat) : Option FilterBuffers :=
  if vectorStorage w alloc (d4Request w count) && vectorStorage w alloc (d8Request w count) then
    some ⟨count4 w count, d4Request w count, d8Request w count⟩
  else none

/-- Modelled from the spec: the extent of the buffer that `meshopt_decodeFilterOct` and
`meshopt_decodeFilterQuat` (missing from the source) transform in place, `count` elements
of `stride` bytes. -/
def filterBytes (count stride : Nat) : Nat := count * stride

/-! ## The run of `main` up to the call of `benchCodecs` -/

/-- The value of `sizeof(Vertex)`: sixteen `uint16_t`. -/
def sizeofVertex : Nat := 32

/-- The value of `sizeof(unsigned int)`. -/
def sizeofIndex : Nat := 4

/-- Whether every `int` expression that `main` evaluates for the grid size `N` stays
within `int`: `(N + 1) * (N + 1)` (line 134), the loop counters, which reach `N + 1`,
`(x * (N + 1) + y) * 16 + k`, largest at `x = y = N`, `k = 15` (line 144), `N * N * 6`
(line 156), the index expressions, largest `N * N + N` (lines 162 to 168), and `8 * N * N`
(line 173).  Signed overflow is undefined, so outside this range the run has no defined
result. -/
def intExprsFit (N : Nat) : Bool :=
  decide ((N + 1) * (N + 1) ≤ INT_MAX) && decide (N + 1 ≤ INT_MAX)
    && decide ((N * (N + 1) + N) * 16 + 15 ≤ INT_MAX) && decide (N * N * 6 ≤ INT_MAX)
    && decide (N * N + N ≤ INT_MAX) && decide (8 * N * N ≤ INT_MAX)

/-- The vectors `vertices` and `indices` that `main` hands to `benchCodecs`: `vertices`
reserves `(N + 1) * (N + 1)` records and `indices` reserves `N * N * 6` elements before the
loops fill them.  The result is `none` when an `int` expression overflows or a `reserve`
throws, in which case the run does not reach `benchCodecs`. -/
def main_buffers (w : Nat) (alloc : Nat → Bool) (N : Nat) : Option (List Vertex × List Nat) :=
  if intExprsFit N && vectorStorage w alloc ((N + 1) * (N + 1) * sizeofVertex)
      && vectorStorage w alloc (N * N * 6 * sizeofIndex) then
    some (vertices N, indices N)
  else none

/-! ## The codecs called by `benchCodecs`

`meshopt_encodeVertexBuffer`, `meshopt_decodeVertexBuffer`, `meshopt_encodeIndexBuffer`,
`meshopt_decodeIndexBuffer` and the two bound queries are called by `benchCodecs` but are
defined in the library, outside `tools/codecbench.cpp`.  They are modelled from the
engine description: byte streams are lists of naturals, a vertex buffer is a list of records
(lists of `stride` bytes) and an index buffer a list of naturals. -/

/-- Modelled from the spec: the distinct failure result of the decoders (`CorruptStream`:
unknown version tag, truncated payload, count/stride mismatch); the library's error type is
missing from the source. -/
inductive DecodeError where
  | CorruptStream
deriving DecidableEq, Repr

/-- Modelled from the spec: the `int` returned by the decode entry points, which
`benchCodecs` asserts to be 0; 0 is success and a failure is reported as a non-zero value. -/
def returnCode {α : Type} : Except DecodeError α → Int
  | .ok _ => 0
  | .error _ => -1

/-- Modelled from the spec: the `size_t` returned by the encode entry points, the encoded
size, 0 when the output buffer is too small. -/
def encodedSize : Option (List Nat) → Nat
  | some bytes => bytes.length
  | none => 0

/-! ### BitstreamCodec -/

/-- Modelled from the spec: the variable-length writer primitive of BitstreamCodec (missing
from the source): seven payload bits per byte, low group first, bit 7 set on every byte but
the last. -/
def writeVarint (n : Nat) : List Nat :=
  if n < 128 then [n] else (n % 128 + 128) :: writeVarint (n / 128)
termination_by n
decreasing_by omega

/-- Modelled from the spec: number of bytes `writeVarint` emits, used by the bound
queries. -/
def varintLength (n : Nat) : Nat :=
  if n < 128 then 1 else 1 + varintLength (n / 128)
termination_by n
decreasing_by omega

/-- Modelled from the spec: the variable-length reader primitive of BitstreamCodec; `none`
when the stream ends inside a value or holds something that is not a byte. -/
def readVarint : List Nat → Option (Nat × List Nat)
  | [] => none
  | b :: rest =>
    if b < 128 then some (b, rest)
    else if b < 256 then
      match readVarint rest with
      | some (v, rest') => some (b - 128 + 128 * v, rest')
      | none => none
    else none

/-! ### VertexCodec -/

/-- Modelled from the spec: the header byte of an encoded vertex blob (format tag and
version); the spec fixes no value. -/
def vertexTag : Nat := 0xa0

/-- Modelled from the spec: the number of consecutive vertices in a block; the spec fixes no
value. -/
def vertexBlockSize : Nat := 16

/-- Modelled from the spec: residuals of one byte lane, each byte predicted from the same
lane of the preceding vertex (difference modulo 256). -/
def residuals (prev : Nat) : List Nat → List Nat
  | [] => []
  | b :: t => ((b + 256 - prev) % 256) :: residuals b t

/-- Modelled from the spec: the inverse prediction of the decoder. -/
def unresiduals (prev : Nat) : List Nat → List Nat
  | [] => []
  | d :: t => ((prev + d) % 256) :: unresiduals ((prev + d) % 256) t

/-- Modelled from the spec: byte lane `k` of a block of consecutive vertices. -/
def lane (k : Nat) (blk : List (List Nat)) : List Nat :=
  blk.map (fun r => r.getD k 0)

/-- Modelled from the spec: the compact residual code of one lane.  Every block is an
anchor: the first byte of a lane is predicted from 0.  Mode 0 stands for a lane whose
residuals are all zero, mode 1 is followed by the residual bytes. -/
def encodeLane (l : List Nat) : List Nat :=
  if (residuals 0 l).all (fun d => d == 0) then [0] else 1 :: residuals 0 l

/-- Modelled from the spec: a block is emitted lane by lane. -/
def encodeBlock (stride : Nat) (blk : List (List Nat)) : List Nat :=
  (List.range stride).flatMap (fun k => encodeLane (lane k blk))

/-- Modelled from the spec: the loop over the blocks of the vertex buffer. -/
def encodeBlocks (stride : Nat) : Nat → List (List Nat) → List Nat
  | 0, _ => []
  | n + 1, vs =>
    encodeBlock stride (vs.take vertexBlockSize)
      ++ encodeBlocks stride n (vs.drop vertexBlockSize)

/-- Modelled from the spec: number of blocks of `count` vertices. -/
def blockCount (count : Nat) : Nat :=
  (count + vertexBlockSize - 1) / vertexBlockSize

/-- Modelled from the spec: the encoded vertex blob, header (format tag and version, element
count, stride) followed by the payload. -/
def encodeVertexBlob (vertices : List (List Nat)) (vertex_count vertex_size : Nat) :
    List Nat :=
  vertexTag :: (writeVarint vertex_count ++ (writeVarint vertex_size
    ++ encodeBlocks vertex_size (blockCount vertex_count) (vertices.take vertex_count)))

/-- Modelled from the spec: `meshopt_encodeVertexBufferBound` (declared in the missing
`meshoptimizer.h`), the header plus one mode byte and one residual byte per lane entry. -/
def meshopt_encodeVertexBufferBound (vertex_count vertex_size : Nat) : Nat :=
  1 + varintLength vertex_count + varintLength vertex_size
    + blockCount vertex_count * vertex_size + vertex_count * vertex_size

/-- Modelled from the spec: `meshopt_encodeVertexBuffer` (missing from the source) writing
into a buffer of `buffer_size` bytes; `none` when the blob does not fit. -/
def meshopt_encodeVertexBuffer (buffer_size : Nat) (vertices : List (List Nat))
    (vertex_count vertex_size : Nat) : Option (List Nat) :=
  if (encodeVertexBlob vertices vertex_count vertex_size).length ≤ buffer_size then
    some (encodeVertexBlob vertices vertex_count vertex_size)
  else none

/-- Modelled from the spec: decoder of one lane of `m` vertices; fails on a truncated
payload and on an unknown mode. -/
def decodeLane (m : Nat) : List Nat → Except DecodeError (List Nat × List Nat)
  | [] => .error .CorruptStream
  | mode :: rest =>
    if mode = 0 then .ok (unresiduals 0 (List.replicate m 0), rest)
    else if mode = 1 then
      if rest.length < m then .error .CorruptStream
      else .ok (unresiduals 0 (rest.take m), rest.drop m)
    else .error .CorruptStream

/-- Modelled from the spec: decoder of `k` consecutive lanes. -/
def decodeLanes (m : Nat) : Nat → List Nat → Except DecodeError (List (List Nat) × List Nat)
  | 0, bytes => .ok ([], bytes)
  | k + 1, bytes =>
    match decodeLane m bytes with
    | .error e => .error e
    | .ok (l, rest) =>
      match decodeLanes m k rest with
      | .error e => .error e
      | .ok (ls, rest') => .ok (l :: ls, rest')

/-- Modelled from the spec: decoder of one block of `m` vertices, which reassembles the
records from the lanes. -/
def decodeBlock (stride m : Nat) (bytes : List Nat) :
    Except DecodeError (List (List Nat) × List Nat) :=
  match decodeLanes m stride bytes with
  | .error e => .error e
  | .ok (lanes, rest) =>
    .ok ((List.range m).map (fun i => lanes.map (fun l => l.getD i 0)), rest)

/-- Modelled from the spec: the decoder loop over the blocks, `remaining` vertices to go. -/
def decodeBlocks (stride : Nat) :
    Nat → Nat → List Nat → Except DecodeError (List (List Nat) × List Nat)
  | 0, _, bytes => .ok ([], bytes)
  | n + 1, remaining, bytes =>
    match decodeBlock stride (min vertexBlockSize remaining) bytes with
    | .error e => .error e
    | .ok (blk, rest) =>
      match decodeBlocks stride n (remaining - min vertexBlockSize remaining) rest with
      | .error e => .error e
      | .ok (tail, rest') => .ok (blk ++ tail, rest')

/-- Modelled from the spec: `meshopt_decodeVertexBuffer` (missing from the source); fails
with `CorruptStream` on an unknown tag, on a count or stride that differs from the caller's
and on a truncated payload. -/
def meshopt_decodeVertexBuffer (vertex_count vertex_size : Nat) :
    List Nat → Except DecodeError (List (List Nat))
  | [] => .error .CorruptStream
  | tag :: rest =>
    if tag ≠ vertexTag then .error .CorruptStream
    else
      match readVarint rest with
      | none => .error .CorruptStream
      | some (c, rest1) =>
        if c ≠ vertex_count then .error .CorruptStream
        else
          match readVarint rest1 with
          | none => .error .CorruptStream
          | some (s, rest2) =>
            if s ≠ vertex_size then .error .CorruptStream
            else
              match decodeBlocks vertex_size (blockCount vertex_count) vertex_count rest2 with
              | .error e => .error e
              | .ok (vs, _) => .ok vs

/-! ### IndexCodec -/

/-- Modelled from the spec: the format tag of an encoded index blob; the header byte is
the tag plus the format version; the spec fixes no value. -/
def indexTag : Nat := 0xe0

/-- Modelled from the spec: the bound of the history of last-seen vertex indices; the spec
fixes no value. -/
def indexHistorySize : Nat := 16

/-- Modelled from the spec: the history after index `v` has been emitted, newest first. -/
def pushHistory (H : List Nat) (v : Nat) : List Nat :=
  (v :: H).take indexHistorySize

/-- Modelled from the spec: the code of one index against the history `H`.  A code below 16
is the position of the index in the history (short code for a reused vertex), a code
`16 .. 254` (format version 1 only) is a forward delta `1 .. 239` against the newest entry,
and the escape code 255 is followed by the absolute index. -/
def encodeIndex (version : Nat) (H : List Nat) (v : Nat) : List Nat :=
  if H.indexOf v < H.length ∧ H.indexOf v < indexHistorySize then [H.indexOf v]
  else if 1 ≤ version ∧ H.headD 0 < v ∧ v - H.headD 0 ≤ 239 then [15 + (v - H.headD 0)]
  else 255 :: writeVarint v

/-- Modelled from the spec: the encoder loop over the triangles. -/
def encodeTriangles (version : Nat) : List Nat → List Nat → List Nat
  | H, a :: b :: c :: rest =>
    encodeIndex version H a
      ++ (encodeIndex version (pushHistory H a) b
      ++ (encodeIndex version (pushHistory (pushHistory H a) b) c
      ++ encodeTriangles version (pushHistory (pushHistory (pushHistory H a) b) c) rest))
  | _, _ => []

/-- Modelled from the spec: the encoded index blob for the format version selected by
`meshopt_encodeIndexVersion`: header (tag plus version, element count), then the triangle
codes. -/
def encodeIndexBlob (version : Nat) (indices : List Nat) (index_count : Nat) : List Nat :=
  (indexTag + version) :: (writeVarint index_count
    ++ encodeTriangles version [] (indices.take index_count))

/-- Modelled from the spec: `meshopt_encodeIndexBufferBound` (declared in the missing
`meshoptimizer.h`): the header plus, per index, an escape code and an absolute index below
`vertex_count`. -/
def meshopt_encodeIndexBufferBound (index_count vertex_count : Nat) : Nat :=
  1 + varintLength index_count + index_count * (1 + varintLength vertex_count)

/-- Modelled from the spec: `meshopt_encodeIndexBuffer` (missing from the source) writing
into a buffer of `buffer_size` bytes; `none` when the blob does not fit. -/
def meshopt_encodeIndexBuffer (version buffer_size : Nat) (indices : List Nat)
    (index_count : Nat) : Option (List Nat) :=
  if (encodeIndexBlob version indices index_count).length ≤ buffer_size then
    some (encodeIndexBlob version indices index_count)
  else none

/-- Modelled from the spec: decoder of one index code.  The decode entry point called by
`benchCodecs` receives the element width `index_size` and no vertex count, so the range
check on a decoded index is that it fits an element of `index_size` bytes. -/
def decodeIndex (version index_size : Nat) (H : List Nat) :
    List Nat → Except DecodeError (Nat × List Nat)
  | [] => .error .CorruptStream
  | c :: rest =>
    if c < 16 then
      match H[c]? with
      | some v => .ok (v, rest)
      | none => .error .CorruptStream
    else if c < 255 then
      if 1 ≤ version ∧ H.headD 0 + (c - 15) < 2 ^ (8 * index_size) then
        .ok (H.headD 0 + (c - 15), rest)
      else .error .CorruptStream
    else if c = 255 then
      match readVarint rest with
      | some (v, rest') =>
        if v < 2 ^ (8 * index_size) then .ok (v, rest') else .error .CorruptStream
      | none => .error .CorruptStream
    else .error .CorruptStream

/-- Modelled from the spec: the decoder loop over `n` triangles. -/
def decodeTriangles (version index_size : Nat) :
    Nat → List Nat → List Nat → Except DecodeError (List Nat × List Nat)
  | 0, _, bytes => .ok ([], bytes)
  | n + 1, H, bytes =>
    match decodeIndex version index_size H bytes with
    | .error e => .error e
    | .ok (a, r1) =>
      match decodeIndex version index_size (pushHistory H a) r1 with
      | .error e => .error e
      | .ok (b, r2) =>
        match decodeIndex version index_size (pushHistory (pushHistory H a) b) r2 with
        | .error e => .error e
        | .ok (c, r3) =>
          match decodeTriangles version index_size n
              (pushHistory (pushHistory (pushHistory H a) b) c) r3 with
          | .error e => .error e
          | .ok (tail, rest) => .ok (a :: b :: c :: tail, rest)

/-- Modelled from the spec: `meshopt_decodeIndexBuffer` (missing from the source); fails
with `CorruptStream` on an unrecognized header version, on an element count that differs
from the caller's, on a truncated payload and on an index that does not fit `index_size`
bytes.  Format versions 0 and 1 are both decoded. -/
def meshopt_decodeIndexBuffer (index_count index_size : Nat) :
    List Nat → Except DecodeError (List Nat)
  | [] => .error .CorruptStream
  | tag :: rest =>
    if tag = indexTag ∨ tag = indexTag + 1 then
      match readVarint rest with
      | none => .error .CorruptStream
      | some (c, rest1) =>
        if c ≠ index_count then .error .CorruptStream
        else
          match decodeTriangles (tag - indexTag) index_size (index_count / 3) [] rest1 with
          | .error e => .error e
          | .ok (is, _) => .ok is
    else .error .CorruptStream

/-! ## Lemmas on the generated mesh -/

theorem toU32_le (n : Nat) : toU32 n ≤ n := Nat.mod_le _ _

theorem toU32_eq {n : Nat} (h : n < 2 ^ 32) : toU32 n = n := Nat.mod_eq_of_lt h

theorem length_vertices (N : Nat) : (vertices N).length = (N + 1) * (N + 1) := by
  simp [vertices, List.length_flatMap, Function.comp_def]

theorem length_cellIndices (N x y : Nat) : (cellIndices N x y).length = 6 := rfl

theorem length_indices (N : Nat) : (indices N).length = 6 * N * N := by
  simp [indices, List.length_flatMap, Function.comp_def, length_cellIndices]
  ring

theorem mem_indices {N v : Nat} :
    v ∈ indices N ↔ ∃ x, x < N ∧ ∃ y, y < N ∧ v ∈ cellIndices N x y := by
  simp only [indices, List.mem_flatMap, List.mem_range]

theorem length_grid {α : Type} (f : Nat → Nat → α) (a b : Nat) :
    ((List.range a).flatMap (fun x => (List.range b).map (f x))).length = a * b := by
  simp [List.length_flatMap, Function.comp_def]

/-- Row-major addressing of a list built by two nested counting loops. -/
theorem grid_get {α : Type} (f : Nat → Nat → α) (a b i j : Nat) (hi : i < a) (hj : j < b) :
    ((List.range a).flatMap (fun x => (List.range b).map (f x)))[i * b + j]? = some (f i j) := by
  induction a with
  | zero => omega
  | succ a ih =>
    rw [List.range_succ, List.flatMap_append]
    by_cases h : i < a
    · have hlt : i * b + j < ((List.range a).flatMap (fun x => (List.range b).map (f x))).length := by
        rw [length_grid]
        calc i * b + j < i * b + b := by omega
          _ = (i + 1) * b := by ring
          _ ≤ a * b := Nat.mul_le_mul_right b h
      rw [List.getElem?_append_left hlt]
      exact ih h
    · have hia : i = a := by omega
      subst hia
      have hge : ((List.range i).flatMap (fun x => (List.range b).map (f x))).length ≤ i * b + j := by
        rw [length_grid]; omega
      rw [List.getElem?_append_right hge, length_grid]
      simp [hj]

theorem vertices_get {N i j : Nat} (hi : i ≤ N) (hj : j ≤ N) :
    (vertices N)[gridPos N i j]? = some (vertexAt N i j) := by
  unfold vertices gridPos
  exact grid_get (fun x y => vertexAt N x y) (N + 1) (N + 1) i j (by omega) (by omega)

theorem mem_vertices {N : Nat} {v : Vertex} :
    v ∈ vertices N ↔ ∃ x, x ≤ N ∧ ∃ y, y ≤ N ∧ v = vertexAt N x y := by
  simp only [vertices, List.mem_flatMap, List.mem_range, List.mem_map, Nat.lt_succ_iff]
  constructor
  · rintro ⟨x, hx, y, hy, hv⟩
    exact ⟨x, hx, y, hy, hv.symm⟩
  · rintro ⟨x, hx, y, hy, hv⟩
    exact ⟨x, hx, y, hy, hv.symm⟩

theorem wordValue_eq_mod (N x y k : Nat) : wordValue N x y k = wordHash N x y k % 2 ^ k := by
  unfold wordValue
  rw [Nat.one_shiftLeft, Nat.and_pow_two_sub_one_eq_mod]

theorem wordValue_lt (N x y k : Nat) : wordValue N x y k < 2 ^ k := by
  rw [wordValue_eq_mod]
  exact Nat.mod_lt _ (by positivity)

theorem toU16_wordValue {N x y k : Nat} (hk : k < 16) :
    toU16 (wordValue N x y k) = wordValue N x y k := by
  unfold toU16
  apply Nat.mod_eq_of_lt
  calc wordValue N x y k < 2 ^ k := wordValue_lt N x y k
    _ ≤ 2 ^ 16 := Nat.pow_le_pow_right (by decide) (by omega)

theorem data_get {N x y k : Nat} (hk : k < 16) :
    (vertexAt N x y).data[k]? = some (wordValue N x y k) := by
  simp only [vertexAt, List.getElem?_map, List.getElem?_range hk, Option.map_some',
    toU16_wordValue hk]

theorem cellIndices_le {N x y v : Nat} (hx : x < N) (hy : y < N) (hv : v ∈ cellIndices N x y) :
    v ≤ N * N + N := by
  have h1 : (x + 1) * N ≤ N * N := Nat.mul_le_mul_right N hx
  have h0 : x * N ≤ (x + 1) * N := Nat.mul_le_mul_right N (by omega)
  simp only [cellIndices, List.mem_cons, List.mem_singleton, List.not_mem_nil, or_false,
    Nat.add_zero] at hv
  rcases hv with h | h | h | h | h | h <;> subst h <;>
    refine le_trans (toU32_le _) ?_ <;> omega

theorem indices_lt_vertices {N v : Nat} (hv : v ∈ indices N) : v < (vertices N).length := by
  obtain ⟨x, hx, y, hy, hm⟩ := mem_indices.mp hv
  have := cellIndices_le hx hy hm
  rw [length_vertices]
  nlinarith

/-! ## The generated mesh: claims -/

/-- C4: every index pushed by `main` is a valid vertex index.  The number of vertices
pushed is `(N + 1) * (N + 1)`; for every cell `(x, y)` with `x < N` and `y < N` each of the
six values pushed for the cell is below it; hence every element of `indices` is below the
length of `vertices`, the precondition of the optimizers called by `benchCodecs`. -/
theorem main_indices_valid (N : Nat) :
    (vertices N).length = (N + 1) * (N + 1) ∧
    (∀ x y, x < N → y < N → ∀ v ∈ cellIndices N x y, v < (N + 1) * (N + 1)) ∧
    (∀ v ∈ indices N, v < (vertices N).length) := by
  refine ⟨length_vertices N, ?_, fun v hv => indices_lt_vertices hv⟩
  intro x y hx hy v hv
  have := cellIndices_le hx hy hv
  nlinarith

theorem main_indices_valid_witness :
    (1 < 2 ∧ 1 < 2 ∧ 6 ∈ cellIndices 2 1 1) ∧ 6 < (2 + 1) * (2 + 1) :=
  ⟨⟨by decide, by decide, by decide⟩,
    (main_indices_valid 2).2.1 1 1 (by decide) (by decide) 6 (by decide)⟩

/-- C5: shape of the generated mesh.  For every `N` the vertex loop pushes exactly
`(N + 1) * (N + 1)` vertices, each of 16 words, each word a sixteen-bit value; the index
loop pushes exactly `6 * N * N` indices, six (two triangles) per cell, a multiple of 3;
for the `N = 1000` of `main` that is 1002001 vertices and 6000000 indices. -/
theorem main_mesh_shape :
    (∀ N : Nat,
      (vertices N).length = (N + 1) * (N + 1) ∧
      (vertices N).map (fun v => v.data.length) = List.replicate ((N + 1) * (N + 1)) 16 ∧
      (vertices N).all (fun v => v.data.all (fun w => decide (w < 2 ^ 16))) = true ∧
      (indices N).length = 6 * N * N ∧
      (∀ x y, (cellIndices N x y).length = 2 * 3) ∧
      (indices N).length = 3 * (2 * (N * N)) ∧
      (indices N).length % 3 = 0) ∧
    ((vertices main_N).length = 1002001 ∧ (indices main_N).length = 6000000) := by
  refine ⟨fun N => ⟨length_vertices N, ?_, ?_, length_indices N, fun _ _ => rfl, ?_, ?_⟩, ?_, ?_⟩
  · rw [List.eq_replicate_iff]
    refine ⟨by simp [length_vertices], ?_⟩
    intro n hn
    obtain ⟨v, hv, rfl⟩ := List.mem_map.mp hn
    obtain ⟨x, _, y, _, rfl⟩ := mem_vertices.mp hv
    simp [vertexAt]
  · rw [List.all_eq_true]
    intro v hv
    obtain ⟨x, _, y, _, rfl⟩ := mem_vertices.mp hv
    rw [List.all_eq_true]
    intro w hw
    simp only [vertexAt, List.mem_map] at hw
    obtain ⟨k, _, rfl⟩ := hw
    simp only [decide_eq_true_eq, toU16]
    exact Nat.mod_lt _ (by positivity)
  · rw [length_indices]; ring
  · rw [length_indices, Nat.mul_assoc, show 6 = 3 * 2 from rfl, Nat.mul_assoc]
    exact Nat.mul_mod_right _ _
  · rw [length_vertices]; rfl
  · rw [length_indices]; rfl

/-- C7: each attribute word is a `k`-bit value.  For `x ≤ N`, `y ≤ N` the vertex stored at
position `x * (N + 1) + y` is the one built in iteration `(x, y)`, and for `k < 16` its word
`k` is `murmur3((x * (N + 1) + y) * 16 + k)` reduced modulo `2 ^ k`; it is below `2 ^ k`,
word 0 is 0, and the store into `uint16_t` leaves the value `h & ((1 << k) - 1)` unchanged. -/
theorem vertex_word_bits (N x y k : Nat) (hx : x ≤ N) (hy : y ≤ N) (hk : k < 16) :
    (vertices N)[x * (N + 1) + y]? = some (vertexAt N x y) ∧
    (vertexAt N x y).data[k]? = some (murmur3 (toU32 ((x * (N + 1) + y) * 16 + k)) % 2 ^ k) ∧
    murmur3 (toU32 ((x * (N + 1) + y) * 16 + k)) % 2 ^ k < 2 ^ k ∧
    (vertexAt N x y).data[0]? = some 0 ∧
    toU16 (wordValue N x y k) = wordValue N x y k := by
  refine ⟨vertices_get hx hy, ?_, Nat.mod_lt _ (by positivity), ?_, toU16_wordValue hk⟩
  · rw [data_get hk, wordValue_eq_mod]; rfl
  · rw [data_get (by decide), wordValue_eq_mod]; simp [Nat.mod_one]

theorem vertex_word_bits_witness :
    (3 ≤ 1000 ∧ 5 ≤ 1000 ∧ 7 < 16) ∧
    ((vertices 1000)[3 * (1000 + 1) + 5]? = some (vertexAt 1000 3 5) ∧
    (vertexAt 1000 3 5).data[7]?
      = some (murmur3 (toU32 ((3 * (1000 + 1) + 5) * 16 + 7)) % 2 ^ 7) ∧
    murmur3 (toU32 ((3 * (1000 + 1) + 5) * 16 + 7)) % 2 ^ 7 < 2 ^ 7 ∧
    (vertexAt 1000 3 5).data[0]? = some 0 ∧
    toU16 (wordValue 1000 3 5 7) = wordValue 1000 3 5 7) :=
  ⟨⟨by decide, by decide, by decide⟩,
    vertex_word_bits 1000 3 5 7 (by decide) (by decide) (by decide)⟩

/-- C6: at the `N = 1000` of `main` the cell `(1, 0)` is not a cell of the regular grid over
the generated vertices.  The loop pushes `1000, 2000, 1001, 1001, 2000, 2001`, while the
corners `(1,0) (2,0) (1,1)` and `(1,1) (2,0) (2,1)` are stored at
`1001, 2002, 1002, 1002, 2002, 2003`; position 1000, the first value pushed, holds the vertex
of iteration `(0, 1000)` and position 1001 the vertex of iteration `(1, 0)`, and the two
vertices differ. -/
theorem main_cell_stride_mismatch :
    cellIndices main_N 1 0 = [1000, 2000, 1001, 1001, 2000, 2001] ∧
    gridCellIndices main_N 1 0 = [1001, 2002, 1002, 1002, 2002, 2003] ∧
    (vertices main_N)[1000]? = some (vertexAt main_N 0 1000) ∧
    (vertices main_N)[1001]? = some (vertexAt main_N 1 0) ∧
    vertexAt main_N 0 1000 ≠ vertexAt main_N 1 0 := by
  refine ⟨by decide, by decide, ?_, ?_, by decide⟩
  · exact @vertices_get 1000 0 1000 (by decide) (by decide)
  · exact @vertices_get 1000 1 0 (by decide) (by decide)

theorem mem_indices_of_le {N v : Nat} (hN : 1 ≤ N) (h32 : N * N + N < 2 ^ 32)
    (hv : v ≤ N * N + N) : v ∈ indices N := by
  rw [mem_indices]
  by_cases hlast : v = N * N + N
  · refine ⟨N - 1, by omega, N - 1, by omega, ?_⟩
    have e : (N - 1 + 1) * N + (N - 1 + 1) = v := by
      rw [Nat.sub_add_cancel hN, hlast]
    simp only [cellIndices, List.mem_cons, e, toU32_eq (lt_of_le_of_lt hv h32)]
    simp
  · have hlt : v < N * (N + 1) := by
      have : N * (N + 1) = N * N + N := by ring
      omega
    have hdiv : v / N < N + 1 := Nat.div_lt_of_lt_mul hlt
    have hmod : v % N < N := Nat.mod_lt _ (by omega)
    have hdm : v / N * N + v % N = v := by
      rw [Nat.mul_comm]; exact Nat.div_add_mod v N
    by_cases ha : v / N < N
    · refine ⟨v / N, ha, v % N, hmod, ?_⟩
      simp only [cellIndices, List.mem_cons, Nat.add_zero, hdm,
        toU32_eq (lt_of_le_of_lt hv h32)]
      simp
    · have haN : v / N = N := by omega
      refine ⟨N - 1, by omega, v % N, hmod, ?_⟩
      have e : (N - 1 + 1) * N + (v % N + 0) = v := by
        rw [Nat.sub_add_cancel hN, Nat.add_zero]
        rw [haN] at hdm
        exact hdm
      simp only [cellIndices, List.mem_cons, e, toU32_eq (lt_of_le_of_lt hv h32)]
      simp

/-- C8: the positions referenced by the generated index buffer.  For every `N ≥ 1` and every
run of `main` that builds its two vectors (no `int` expression overflows and both `reserve`
calls obtain their storage), a value occurs in `indices` exactly when it is at most
`N * N + N`; `vertices` has `(N + 1) * (N + 1)` elements, the positions referenced by no
triangle are exactly its last `N` positions, and there are exactly `N` of them.  The
vectors are built whenever the `int` expressions fit and the storage is granted, as for
the `N = 1000` of `main`. -/
theorem main_referenced_positions (w N : Nat) (alloc : Nat → Bool) (hN : 1 ≤ N) :
    (∀ vs is, main_buffers w alloc N = some (vs, is) →
      (∀ v, v ∈ is ↔ v ≤ N * N + N) ∧
      vs.length = (N + 1) * (N + 1) ∧
      (∀ p, p < vs.length → (p ∉ is ↔ vs.length - N ≤ p)) ∧
      ((Finset.range vs.length).filter (fun p => p ∉ is)).card = N) ∧
    (intExprsFit N = true →
      vectorStorage w alloc ((N + 1) * (N + 1) * sizeofVertex) = true →
      vectorStorage w alloc (N * N * 6 * sizeofIndex) = true →
      main_buffers w alloc N = some (vertices N, indices N)) := by
  constructor
  · intro vs is hrun
    unfold main_buffers at hrun
    split at hrun
    · rename_i hc
      simp only [Option.some.injEq, Prod.mk.injEq] at hrun
      obtain ⟨rfl, rfl⟩ := hrun
      simp only [Bool.and_eq_true, intExprsFit, decide_eq_true_eq, INT_MAX] at hc
      have h32 : N * N + N < 2 ^ 32 := by
        have := hc.1.1.1.2
        omega
      have hmem : ∀ v, v ∈ indices N ↔ v ≤ N * N + N := fun v =>
        ⟨fun hv => by
          obtain ⟨x, hx, y, hy, hm⟩ := mem_indices.mp hv
          exact cellIndices_le hx hy hm,
         fun hv => mem_indices_of_le hN h32 hv⟩
      have hlen : (vertices N).length = N * N + N + 1 + N := by
        rw [length_vertices]; ring
      refine ⟨hmem, length_vertices N, ?_, ?_⟩
      · intro p _
        rw [hmem, hlen]
        omega
      · have hset : (Finset.range (vertices N).length).filter (fun p => p ∉ indices N)
            = Finset.Ico (N * N + N + 1) (N * N + N + 1 + N) := by
          ext p
          simp only [Finset.mem_filter, Finset.mem_range, Finset.mem_Ico, hmem, hlen]
          omega
        rw [hset, Nat.card_Ico]
        omega
    · exact absurd hrun (by simp)
  · intro h1 h2 h3
    unfold main_buffers
    rw [h1, h2, h3]
    rfl

theorem main_referenced_positions_witness :
    (1 ≤ main_N ∧
      main_buffers 64 (allocUpTo (2 ^ 32)) main_N = some (vertices main_N, indices main_N)) ∧
    ((∀ v, v ∈ indices main_N ↔ v ≤ main_N * main_N + main_N) ∧
      (vertices main_N).length = (main_N + 1) * (main_N + 1) ∧
      (∀ p, p < (vertices main_N).length →
        (p ∉ indices main_N ↔ (vertices main_N).length - main_N ≤ p)) ∧
      ((Finset.range (vertices main_N).length).filter (fun p => p ∉ indices main_N)).card
        = main_N) :=
  ⟨⟨by decide,
      (main_referenced_positions 64 main_N (allocUpTo (2 ^ 32)) (by decide)).2
        (by decide) (by decide) (by decide)⟩,
    (main_referenced_positions 64 main_N (allocUpTo (2 ^ 32)) (by decide)).1 _ _
      ((main_referenced_positions 64 main_N (allocUpTo (2 ^ 32)) (by decide)).2
        (by decide) (by decide) (by decide))⟩

/-! ## `benchFilters`: the element-count round-up -/

/-- Masking a `w`-bit value with `2 ^ w - 4` clears its two low bits. -/
theorem and_not_three {w x : Nat} (hw : 2 ≤ w) (hx : x < 2 ^ w) :
    x &&& (2 ^ w - 4) = x / 4 * 4 := by
  have h3 : 3 < 2 ^ w :=
    lt_of_lt_of_le (by decide : 3 < 2 ^ 2) (Nat.pow_le_pow_right (by decide) hw)
  have hr : x / 4 * 4 = 2 ^ 2 * (x >>> 2) := by
    rw [Nat.shiftRight_eq_div_pow, Nat.mul_comm]; rfl
  rw [hr]
  apply Nat.eq_of_testBit_eq
  intro i
  rw [Nat.testBit_and, show 2 ^ w - 4 = 2 ^ w - (3 + 1) from rfl,
    Nat.testBit_two_pow_sub_succ h3, show (3 : Nat) = 2 ^ 2 - 1 from rfl,
    Nat.testBit_two_pow_sub_one, Nat.testBit_mul_pow_two, Nat.testBit_shiftRight]
  by_cases h2 : 2 ≤ i
  · have e : 2 + (i - 2) = i := by omega
    by_cases hiw : i < w
    · simp [h2, hiw, e, show ¬ i < 2 by omega]
    · have hbit : x.testBit i = false :=
        Nat.testBit_lt_two_pow
          (lt_of_lt_of_le hx (Nat.pow_le_pow_right (by decide) (by omega)))
      simp [h2, hiw, e, hbit]
  · simp [h2, show i < 2 by omega]

theorem count4_eq {w count : Nat} (hw : 2 ≤ w) (h3 : count + 3 < 2 ^ w) :
    count4 w count = (count + 3) / 4 * 4 := by
  unfold count4 toSize
  rw [Nat.mod_eq_of_lt h3, and_not_three hw h3]

theorem vectorStorage_zero (w : Nat) (alloc : Nat → Bool) : vectorStorage w alloc 0 = true := by
  simp [vectorStorage]

theorem vectorStorage_lt {w bytes : Nat} {alloc : Nat → Bool}
    (h : vectorStorage w alloc bytes = true) : bytes < 2 ^ w := by
  simp only [vectorStorage, Bool.and_eq_true, decide_eq_true_eq, vectorMaxBytes] at h
  have hpow : 2 ^ (w - 1) ≤ 2 ^ w := Nat.pow_le_pow_right (by decide) (Nat.sub_le w 1)
  have hpos : 0 < 2 ^ (w - 1) := by positivity
  omega

/-- C9 as stated fails on a 64-bit `size_t`: for `count = 2 ^ 62` the sum `count + 3` is
representable and `count4 = 2 ^ 62`, but `count4 * 4` and `count4 * 8` wrap to 0, so for
every allocator `d4` and `d8` are constructed empty and the filters are passed
`count4 = 2 ^ 62` elements of 4 and 8 bytes. -/
theorem benchFilters_sizes_wrap :
    (2 ^ 62 + 3 < 2 ^ 64 ∧ count4 64 (2 ^ 62) = 2 ^ 62 ∧
      (∀ alloc, benchFilters 64 alloc (2 ^ 62) = some ⟨2 ^ 62, 0, 0⟩) ∧
      filterBytes (2 ^ 62) 4 = 2 ^ 64 ∧ filterBytes (2 ^ 62) 8 = 2 ^ 65) ∧
    ¬ (∀ count alloc b, count + 3 < 2 ^ 64 → benchFilters 64 alloc count = some b →
        b.d4 = filterBytes b.count4 4 ∧ b.d8 = filterBytes b.count4 8) := by
  have hc : count4 64 (2 ^ 62) = 2 ^ 62 := by decide
  have h4 : d4Request 64 (2 ^ 62) = 0 := by
    unfold d4Request; rw [hc]; decide
  have h8 : d8Request 64 (2 ^ 62) = 0 := by
    unfold d8Request; rw [hc]; decide
  have hrun : ∀ alloc, benchFilters 64 alloc (2 ^ 62) = some ⟨2 ^ 62, 0, 0⟩ := by
    intro alloc
    unfold benchFilters
    rw [h4, h8, hc, vectorStorage_zero]
    rfl
  refine ⟨⟨by decide, hc, hrun, by decide, by decide⟩, ?_⟩
  intro h
  have h1 := (h (2 ^ 62) (fun _ => true) _ (by decide) (hrun _)).1
  exact absurd h1 (by decide)

/-- C9, amended: for a `size_t` of `w ≥ 2` bits and every `count` with `count + 3`
representable, `count4` is the least multiple of 4 that is at least `count`
(`count ≤ count4 < count + 4`, `count4 % 4 = 0`).  Whenever both vectors are constructed,
the filters are passed `count4`, `d4` holds exactly `count4 * 4` bytes provided `count4 * 4`
is representable, and `d8` holds exactly `count4 * 8` bytes provided `count4 * 8` is
representable, the bytes covered by the filter arguments `(count4, 4)` and `(count4, 8)`.
Both vectors are constructed whenever storage of `count4 * 4` and of `count4 * 8` bytes is
obtained. -/
theorem benchFilters_round_up (w count : Nat) (alloc : Nat → Bool) (hw : 2 ≤ w)
    (h3 : count + 3 < 2 ^ w) :
    (count4 w count % 4 = 0 ∧ count ≤ count4 w count ∧ count4 w count < count + 4 ∧
      (∀ m, m % 4 = 0 → count ≤ m → count4 w count ≤ m)) ∧
    (∀ b, benchFilters w alloc count = some b →
      b.count4 = count4 w count ∧
      (count4 w count * 4 < 2 ^ w → b.d4 = filterBytes b.count4 4) ∧
      (count4 w count * 8 < 2 ^ w → b.d8 = filterBytes b.count4 8)) ∧
    (vectorStorage w alloc (count4 w count * 4) = true →
      vectorStorage w alloc (count4 w count * 8) = true →
      benchFilters w alloc count
        = some ⟨count4 w count, count4 w count * 4, count4 w count * 8⟩) := by
  have hc := count4_eq hw h3
  refine ⟨⟨by omega, by omega, by omega, fun m hm hle => by omega⟩, ?_, ?_⟩
  · intro b hb
    unfold benchFilters at hb
    split at hb
    · simp only [Option.some.injEq] at hb
      subst hb
      refine ⟨rfl, fun h4 => ?_, fun h8 => ?_⟩
      · exact Nat.mod_eq_of_lt h4
      · exact Nat.mod_eq_of_lt h8
    · exact absurd hb (by simp)
  · intro h4 h8
    have e4 : d4Request w count = count4 w count * 4 :=
      Nat.mod_eq_of_lt (vectorStorage_lt h4)
    have e8 : d8Request w count = count4 w count * 8 :=
      Nat.mod_eq_of_lt (vectorStorage_lt h8)
    unfold benchFilters
    rw [e4, e8, h4, h8]
    rfl

theorem benchFilters_round_up_witness :
    (2 ≤ 64 ∧ 8 * main_N * main_N + 3 < 2 ^ 64) ∧
    (count4 64 (8 * main_N * main_N) = 8000000 ∧
      benchFilters 64 (allocUpTo (2 ^ 32)) (8 * main_N * main_N)
        = some ⟨8000000, 32000000, 64000000⟩ ∧
      (32000000 : Nat) = filterBytes 8000000 4 ∧ (64000000 : Nat) = filterBytes 8000000 8) :=
  ⟨⟨by decide, by decide⟩, by decide,
    (benchFilters_round_up 64 (8 * main_N * main_N) (allocUpTo (2 ^ 32))
      (by decide) (by decide)).2.2 (by decide) (by decide),
    by decide, by decide⟩

/-! ## BitstreamCodec: variable-length values -/

theorem readVarint_writeVarint (n : Nat) (rest : List Nat) :
    readVarint (writeVarint n ++ rest) = some (n, rest) := by
  induction n using Nat.strong_induction_on with
  | _ n ih =>
    rw [writeVarint]
    by_cases h : n < 128
    · simp [h, readVarint]
    · have h1 : ¬ n % 128 + 128 < 128 := by omega
      have h2 : n % 128 + 128 < 256 := by omega
      have h3 : n % 128 + 128 - 128 + 128 * (n / 128) = n := by omega
      simp only [h, if_false, List.cons_append, readVarint, h1, h2, if_true,
        ih (n / 128) (by omega), h3]

theorem length_writeVarint (n : Nat) : (writeVarint n).length = varintLength n := by
  induction n using Nat.strong_induction_on with
  | _ n ih =>
    rw [writeVarint, varintLength]
    by_cases h : n < 128
    · simp [h]
    · simp only [h, if_false, List.length_cons, ih (n / 128) (by omega)]
      omega

theorem varintLength_mono {m n : Nat} (h : m ≤ n) : varintLength m ≤ varintLength n := by
  induction n using Nat.strong_induction_on generalizing m with
  | _ n ih =>
    rw [varintLength.eq_1 m, varintLength.eq_1 n]
    by_cases hm : m < 128
    · by_cases hn : n < 128
      · simp [hm, hn]
      · simp only [hm, hn, if_true, if_false]; omega
    · have hn : ¬ n < 128 := by omega
      simp only [hm, hn, if_false]
      have := ih (n / 128) (by omega) (Nat.div_le_div_right (c := 128) h)
      omega

/-! ## VertexCodec: round trip -/

theorem length_residuals (prev : Nat) (l : List Nat) : (residuals prev l).length = l.length := by
  induction l generalizing prev with
  | nil => rfl
  | cons b t ih => simp [residuals, ih]

theorem unresiduals_residuals (prev : Nat) (l : List Nat) (hp : prev < 256)
    (hl : ∀ b ∈ l, b < 256) : unresiduals prev (residuals prev l) = l := by
  induction l generalizing prev with
  | nil => rfl
  | cons b t ih =>
    have hb : b < 256 := hl b (List.mem_cons_self _ _)
    have e : (prev + (b + 256 - prev) % 256) % 256 = b := by omega
    simp only [residuals, unresiduals, e]
    rw [ih b hb (fun c hc => hl c (List.mem_cons_of_mem _ hc))]

theorem decodeLane_encodeLane (m : Nat) (l rest : List Nat) (hm : l.length = m)
    (hl : ∀ b ∈ l, b < 256) : decodeLane m (encodeLane l ++ rest) = .ok (l, rest) := by
  unfold encodeLane
  by_cases hz : (residuals 0 l).all (fun d => d == 0) = true
  · have hrep : residuals 0 l = List.replicate m 0 := by
      rw [List.eq_replicate_iff]
      refine ⟨by rw [length_residuals, hm], fun b hb => ?_⟩
      have := List.all_eq_true.mp hz b hb
      simpa using this
    simp only [hz, if_true, List.cons_append, List.nil_append, decodeLane]
    rw [← hrep, unresiduals_residuals 0 l (by decide) hl]
  · have hlen : ¬ ((residuals 0 l).length + rest.length < m) := by
      rw [length_residuals]; omega
    have hr : (residuals 0 l).length = m := by rw [length_residuals, hm]
    rw [if_neg hz]
    show decodeLane m (1 :: (residuals 0 l ++ rest)) = _
    have h10 : ¬ (1 : Nat) = 0 := by decide
    rw [decodeLane, if_neg h10, if_pos rfl, List.length_append, if_neg hlen,
      List.take_left' hr, List.drop_left' hr, unresiduals_residuals 0 l (by decide) hl]

theorem decodeLanes_flatMap (m : Nat) (ls : List (List Nat)) (rest : List Nat)
    (hls : ∀ l ∈ ls, l.length = m ∧ ∀ b ∈ l, b < 256) :
    decodeLanes m ls.length (ls.flatMap encodeLane ++ rest) = .ok (ls, rest) := by
  induction ls with
  | nil => rfl
  | cons l t ih =>
    have hl := hls l (List.mem_cons_self _ _)
    simp only [List.flatMap_cons, List.append_assoc, List.length_cons, decodeLanes,
      decodeLane_encodeLane m l _ hl.1 hl.2, ih (fun x hx => hls x (List.mem_cons_of_mem _ hx))]

/-- A well-formed vertex buffer: every record has `stride` bytes. -/
theorem lane_wf {stride k : Nat} {blk : List (List Nat)}
    (hblk : ∀ r ∈ blk, r.length = stride ∧ ∀ b ∈ r, b < 256) (hk : k < stride) :
    (lane k blk).length = blk.length ∧ ∀ b ∈ lane k blk, b < 256 := by
  refine ⟨by simp [lane], ?_⟩
  intro b hb
  simp only [lane, List.mem_map] at hb
  obtain ⟨r, hr, rfl⟩ := hb
  have hrl := hblk r hr
  rw [List.getD_eq_getElem r 0 (by omega)]
  exact hrl.2 _ (List.getElem_mem _)

theorem unlanes_lanes {stride : Nat} {blk : List (List Nat)}
    (hblk : ∀ r ∈ blk, r.length = stride) :
    (List.range blk.length).map
      (fun i => ((List.range stride).map (fun k => lane k blk)).map (fun l => l.getD i 0))
      = blk := by
  apply List.ext_getElem
  · simp
  · intro i h1 h2
    have hi : i < blk.length := h2
    have hs : blk[i].length = stride := hblk _ (List.getElem_mem _)
    simp only [List.getElem_map, List.getElem_range, List.map_map]
    apply List.ext_getElem
    · simp [hs]
    · intro k hk1 hk2
      have hk : k < stride := by rw [← hs]; exact hk2
      simp only [List.getElem_map, List.getElem_range, Function.comp_apply, lane]
      rw [List.getD_eq_getElem _ 0 (by simpa using hi), List.getElem_map,
        List.getD_eq_getElem _ 0 hk2]

theorem decodeBlock_encodeBlock (stride : Nat) (blk : List (List Nat)) (rest : List Nat)
    (hblk : ∀ r ∈ blk, r.length = stride ∧ ∀ b ∈ r, b < 256) :
    decodeBlock stride blk.length (encodeBlock stride blk ++ rest) = .ok (blk, rest) := by
  have hflat : encodeBlock stride blk
      = ((List.range stride).map (fun k => lane k blk)).flatMap encodeLane := by
    unfold encodeBlock
    rw [List.flatMap_map]
  have hls : ∀ l ∈ (List.range stride).map (fun k => lane k blk),
      l.length = blk.length ∧ ∀ b ∈ l, b < 256 := by
    intro l hl
    obtain ⟨k, hk, rfl⟩ := List.mem_map.mp hl
    exact lane_wf hblk (List.mem_range.mp hk)
  have hdec := decodeLanes_flatMap blk.length _ rest hls
  rw [List.length_map, List.length_range] at hdec
  unfold decodeBlock
  rw [hflat, hdec]
  simp only
  rw [unlanes_lanes (fun r hr => (hblk r hr).1)]

theorem decodeBlocks_encodeBlocks (stride n : Nat) (vs : List (List Nat)) (rest : List Nat)
    (hvs : ∀ r ∈ vs, r.length = stride ∧ ∀ b ∈ r, b < 256)
    (hn : vs.length ≤ n * vertexBlockSize) :
    decodeBlocks stride n vs.length (encodeBlocks stride n vs ++ rest) = .ok (vs, rest) := by
  induction n generalizing vs with
  | zero =>
    have : vs = [] := List.length_eq_zero.mp (by omega)
    subst this
    rfl
  | succ n ih =>
    have htake : (vs.take vertexBlockSize).length = min vertexBlockSize vs.length :=
      List.length_take _ _
    have hdrop : (vs.drop vertexBlockSize).length
        = vs.length - min vertexBlockSize vs.length := by
      rw [List.length_drop]; omega
    have hb := decodeBlock_encodeBlock stride (vs.take vertexBlockSize)
      (encodeBlocks stride n (vs.drop vertexBlockSize) ++ rest)
      (fun r hr => hvs r (List.mem_of_mem_take hr))
    have ht := ih (vs.drop vertexBlockSize)
      (fun r hr => hvs r (List.mem_of_mem_drop hr))
      (by rw [List.length_drop]; rw [Nat.succ_mul] at hn; omega)
    rw [htake] at hb
    rw [hdrop] at ht
    simp only [encodeBlocks, decodeBlocks, List.append_assoc, hb, ht,
      List.take_append_drop]

theorem le_blockCount_mul (count : Nat) : count ≤ blockCount count * vertexBlockSize := by
  unfold blockCount vertexBlockSize
  omega

theorem vertex_decode_encode (vb : List (List Nat)) (count stride : Nat)
    (hcount : vb.length = count) (hrec : ∀ r ∈ vb, r.length = stride ∧ ∀ b ∈ r, b < 256) :
    meshopt_decodeVertexBuffer count stride (encodeVertexBlob vb count stride) = .ok vb := by
  have hblocks := decodeBlocks_encodeBlocks stride (blockCount count) vb [] hrec
    (by rw [hcount]; exact le_blockCount_mul count)
  rw [hcount, List.append_nil] at hblocks
  unfold encodeVertexBlob meshopt_decodeVertexBuffer
  simp only [ne_eq, not_true_eq_false, if_false, readVarint_writeVarint,
    List.take_of_length_le (le_of_eq hcount), hblocks]

/-! ## VertexCodec: size of the encoded blob -/

theorem length_encodeLane_le (l : List Nat) : (encodeLane l).length ≤ 1 + l.length := by
  unfold encodeLane
  split
  · simp
  · simp [length_residuals]; omega

theorem length_encodeBlock_le (stride : Nat) (blk : List (List Nat)) :
    (encodeBlock stride blk).length ≤ stride * (1 + blk.length) := by
  unfold encodeBlock
  induction stride with
  | zero => simp
  | succ s ih =>
    rw [List.range_succ, List.flatMap_append, List.length_append, Nat.succ_mul]
    have h1 := length_encodeLane_le (lane s blk)
    have h2 : (lane s blk).length = blk.length := by simp [lane]
    simp only [List.flatMap_cons, List.flatMap_nil, List.append_nil]
    omega

theorem length_encodeBlocks_le (stride n : Nat) (vs : List (List Nat)) :
    (encodeBlocks stride n vs).length ≤ n * stride + vs.length * stride := by
  induction n generalizing vs with
  | zero => simp [encodeBlocks]
  | succ n ih =>
    have h1 := length_encodeBlock_le stride (vs.take vertexBlockSize)
    have h2 := ih (vs.drop vertexBlockSize)
    have h3 : (vs.take vertexBlockSize).length + (vs.drop vertexBlockSize).length
        = vs.length := by
      rw [← List.length_append, List.take_append_drop]
    simp only [encodeBlocks, List.length_append]
    calc (encodeBlock stride (vs.take vertexBlockSize)).length
          + (encodeBlocks stride n (vs.drop vertexBlockSize)).length
        ≤ stride * (1 + (vs.take vertexBlockSize).length)
          + (n * stride + (vs.drop vertexBlockSize).length * stride) := Nat.add_le_add h1 h2
      _ = (n + 1) * stride
          + ((vs.take vertexBlockSize).length + (vs.drop vertexBlockSize).length) * stride := by
        ring
      _ = (n + 1) * stride + vs.length * stride := by rw [h3]

theorem length_encodeVertexBlob_le (vb : List (List Nat)) (count stride : Nat)
    (hcount : vb.length = count) :
    (encodeVertexBlob vb count stride).length ≤ meshopt_encodeVertexBufferBound count stride := by
  have h := length_encodeBlocks_le stride (blockCount count) vb
  rw [hcount] at h
  unfold encodeVertexBlob meshopt_encodeVertexBufferBound
  simp only [List.length_cons, List.length_append, length_writeVarint,
    List.take_of_length_le (le_of_eq hcount)]
  omega

theorem vertex_encode_fits (vb : List (List Nat)) (count stride : Nat)
    (hcount : vb.length = count) :
    meshopt_encodeVertexBuffer (meshopt_encodeVertexBufferBound count stride) vb count stride
      = some (encodeVertexBlob vb count stride) := by
  unfold meshopt_encodeVertexBuffer
  rw [if_pos (length_encodeVertexBlob_le vb count stride hcount)]

/-- C1: vertex codec round trip.  For a vertex buffer `vb` of `count` records of `stride`
bytes, `meshopt_encodeVertexBuffer` into a buffer of the bound size produces a blob, and
`meshopt_decodeVertexBuffer` with the same count and stride succeeds on it (return code 0)
and returns `vb` itself. -/
theorem vertex_codec_round_trip (vb : List (List Nat)) (count stride : Nat)
    (hcount : vb.length = count) (hrec : ∀ r ∈ vb, r.length = stride ∧ ∀ b ∈ r, b < 256) :
    ∃ bytes,
      meshopt_encodeVertexBuffer (meshopt_encodeVertexBufferBound count stride) vb count stride
        = some bytes ∧
      meshopt_decodeVertexBuffer count stride bytes = .ok vb ∧
      returnCode (meshopt_decodeVertexBuffer count stride bytes) = 0 := by
  refine ⟨encodeVertexBlob vb count stride, vertex_encode_fits vb count stride hcount, ?_, ?_⟩
  · exact vertex_decode_encode vb count stride hcount hrec
  · rw [vertex_decode_encode vb count stride hcount hrec]; rfl

theorem vertex_codec_round_trip_witness :
    ([[1, 2, 3, 4], [1, 2, 3, 5], [1, 200, 4, 5]].length = 3 ∧
      ∀ r ∈ [[1, 2, 3, 4], [1, 2, 3, 5], [1, 200, 4, 5]], r.length = 4 ∧ ∀ b ∈ r, b < 256) ∧
    ∃ bytes,
      meshopt_encodeVertexBuffer (meshopt_encodeVertexBufferBound 3 4)
        [[1, 2, 3, 4], [1, 2, 3, 5], [1, 200, 4, 5]] 3 4 = some bytes ∧
      meshopt_decodeVertexBuffer 3 4 bytes = .ok [[1, 2, 3, 4], [1, 2, 3, 5], [1, 200, 4, 5]] ∧
      returnCode (meshopt_decodeVertexBuffer 3 4 bytes) = 0 :=
  ⟨⟨by decide, by decide⟩,
    vertex_codec_round_trip [[1, 2, 3, 4], [1, 2, 3, 5], [1, 200, 4, 5]] 3 4
      (by decide) (by decide)⟩

/-! ## IndexCodec: round trip -/

theorem decodeIndex_encodeIndex (version index_size : Nat) (H : List Nat) (v : Nat)
    (rest : List Nat) (hv : v < 2 ^ (8 * index_size)) :
    decodeIndex version index_size H (encodeIndex version H v ++ rest) = .ok (v, rest) := by
  unfold encodeIndex
  by_cases hp : H.indexOf v < H.length ∧ H.indexOf v < indexHistorySize
  · have h16 : H.indexOf v < 16 := hp.2
    have hget : H[H.indexOf v]? = some v := by
      rw [List.getElem?_eq_getElem hp.1, List.getElem_indexOf hp.1]
    rw [if_pos hp]
    show decodeIndex version index_size H (H.indexOf v :: rest) = _
    rw [decodeIndex, if_pos h16, hget]
  · rw [if_neg hp]
    by_cases hd : 1 ≤ version ∧ H.headD 0 < v ∧ v - H.headD 0 ≤ 239
    · rw [if_pos hd]
      show decodeIndex version index_size H ((15 + (v - H.headD 0)) :: rest) = _
      have e : H.headD 0 + (15 + (v - H.headD 0) - 15) = v := by omega
      have hc1 : ¬ 15 + (v - H.headD 0) < 16 := by omega
      have hc2 : 15 + (v - H.headD 0) < 255 := by omega
      rw [decodeIndex, if_neg hc1, if_pos hc2, e, if_pos ⟨hd.1, hv⟩]
    · rw [if_neg hd]
      show decodeIndex version index_size H (255 :: (writeVarint v ++ rest)) = _
      rw [decodeIndex, if_neg (by decide), if_neg (by decide), if_pos rfl,
        readVarint_writeVarint]
      simp only [hv, if_true]

theorem decodeTriangles_encodeTriangles (version index_size n : Nat) (H is rest : List Nat)
    (hlen : is.length = 3 * n) (his : ∀ v ∈ is, v < 2 ^ (8 * index_size)) :
    decodeTriangles version index_size n H (encodeTriangles version H is ++ rest)
      = .ok (is, rest) := by
  induction n generalizing H is with
  | zero =>
    have : is = [] := List.length_eq_zero.mp (by omega)
    subst this
    rfl
  | succ n ih =>
    match is, hlen, his with
    | a :: b :: c :: t, hlen, his =>
      have ha : a < 2 ^ (8 * index_size) := his a (by simp)
      have hb : b < 2 ^ (8 * index_size) := his b (by simp)
      have hc : c < 2 ^ (8 * index_size) := his c (by simp)
      have ht := ih (pushHistory (pushHistory (pushHistory H a) b) c) t
        (by simp only [List.length_cons] at hlen; omega)
        (fun v hv => his v (by simp [hv]))
      simp only [encodeTriangles, decodeTriangles, List.append_assoc,
        decodeIndex_encodeIndex _ _ _ _ _ ha, decodeIndex_encodeIndex _ _ _ _ _ hb,
        decodeIndex_encodeIndex _ _ _ _ _ hc, ht]
    | [], hlen, _ => simp only [List.length_nil] at hlen; omega
    | [_], hlen, _ => simp only [List.length_cons, List.length_nil] at hlen; omega
    | [_, _], hlen, _ => simp only [List.length_cons, List.length_nil] at hlen; omega

theorem index_decode_encode (version : Nat) (ib : List Nat) (index_count : Nat)
    (hversion : version ≤ 1) (hcount : ib.length = index_count) (h3 : index_count % 3 = 0)
    (hib : ∀ v ∈ ib, v < 2 ^ 32) :
    meshopt_decodeIndexBuffer index_count 4 (encodeIndexBlob version ib index_count)
      = .ok ib := by
  have htag : indexTag + version = indexTag ∨ indexTag + version = indexTag + 1 := by
    omega
  have htri := decodeTriangles_encodeTriangles version 4 (index_count / 3) [] ib []
    (by omega) hib
  rw [List.append_nil] at htri
  unfold encodeIndexBlob meshopt_decodeIndexBuffer
  simp only [htag, if_true, readVarint_writeVarint, ne_eq, not_true_eq_false, if_false,
    Nat.add_sub_cancel_left, List.take_of_length_le (le_of_eq hcount), htri]

/-! ## IndexCodec: size of the encoded blob -/

theorem length_encodeIndex_le (version : Nat) (H : List Nat) (v : Nat) :
    (encodeIndex version H v).length ≤ 1 + varintLength v := by
  unfold encodeIndex
  have := length_writeVarint v
  split
  · simp
  · split
    · simp
    · simp [length_writeVarint]; omega

theorem length_encodeTriangles_aux (version vertex_count n : Nat) (H is : List Nat)
    (hn : is.length ≤ 3 * n) (his : ∀ v ∈ is, v < vertex_count) :
    (encodeTriangles version H is).length ≤ is.length * (1 + varintLength vertex_count) := by
  induction n generalizing H is with
  | zero =>
    have : is = [] := List.length_eq_zero.mp (by omega)
    subst this
    simp [encodeTriangles]
  | succ n ih =>
    match is, hn, his with
    | a :: b :: c :: t, hn, his =>
      have ha := length_encodeIndex_le version H a
      have hb := length_encodeIndex_le version (pushHistory H a) b
      have hc := length_encodeIndex_le version (pushHistory (pushHistory H a) b) c
      have hma := varintLength_mono (le_of_lt (his a (by simp)))
      have hmb := varintLength_mono (le_of_lt (his b (by simp)))
      have hmc := varintLength_mono (le_of_lt (his c (by simp)))
      have ht := ih (pushHistory (pushHistory (pushHistory H a) b) c) t
        (by simp only [List.length_cons] at hn; omega)
        (fun v hv => his v (by simp [hv]))
      simp only [encodeTriangles, List.length_append, List.length_cons]
      have e : (t.length + 1 + 1 + 1) * (1 + varintLength vertex_count)
          = t.length * (1 + varintLength vertex_count)
            + 3 * (1 + varintLength vertex_count) := by ring
      rw [e]
      omega
    | [], _, _ => simp [encodeTriangles]
    | [_], _, _ => simp [encodeTriangles]
    | [_, _], _, _ => simp [encodeTriangles]

theorem length_encodeIndexBlob_le (version : Nat) (ib : List Nat)
    (index_count vertex_count : Nat) (hcount : ib.length = index_count)
    (hib : ∀ v ∈ ib, v < vertex_count) :
    (encodeIndexBlob version ib index_count).length
      ≤ meshopt_encodeIndexBufferBound index_count vertex_count := by
  have h := length_encodeTriangles_aux version vertex_count ib.length [] ib (by omega) hib
  rw [hcount] at h
  unfold encodeIndexBlob meshopt_encodeIndexBufferBound
  simp only [List.length_cons, List.length_append, length_writeVarint,
    List.take_of_length_le (le_of_eq hcount)]
  omega

theorem index_encode_fits (version : Nat) (ib : List Nat) (index_count vertex_count : Nat)
    (hcount : ib.length = index_count) (hib : ∀ v ∈ ib, v < vertex_count) :
    meshopt_encodeIndexBuffer version
        (meshopt_encodeIndexBufferBound index_count vertex_count) ib index_count
      = some (encodeIndexBlob version ib index_count) := by
  unfold meshopt_encodeIndexBuffer
  rw [if_pos (length_encodeIndexBlob_le version ib index_count vertex_count hcount hib)]

/-- C2: index codec round trip.  For an index buffer `ib` of `index_count` 32-bit indices,
`index_count` a multiple of 3, every index below `vertex_count`, and either format version,
`meshopt_encodeIndexBuffer` into a buffer of the bound size produces a blob, and
`meshopt_decodeIndexBuffer` with the same count and index size 4 succeeds on it (return
code 0) and returns `ib` itself. -/
theorem index_codec_round_trip (version : Nat) (ib : List Nat) (index_count vertex_count : Nat)
    (hversion : version ≤ 1) (hcount : ib.length = index_count) (h3 : index_count % 3 = 0)
    (hvc : vertex_count ≤ 2 ^ 32) (hib : ∀ v ∈ ib, v < vertex_count) :
    ∃ bytes,
      meshopt_encodeIndexBuffer version
        (meshopt_encodeIndexBufferBound index_count vertex_count) ib index_count = some bytes ∧
      meshopt_decodeIndexBuffer index_count 4 bytes = .ok ib ∧
      returnCode (meshopt_decodeIndexBuffer index_count 4 bytes) = 0 := by
  have hdec := index_decode_encode version ib index_count hversion hcount h3
    (fun v hv => lt_of_lt_of_le (hib v hv) hvc)
  refine ⟨encodeIndexBlob version ib index_count,
    index_encode_fits version ib index_count vertex_count hcount hib, hdec, ?_⟩
  rw [hdec]; rfl

theorem index_codec_round_trip_witness :
    (1 ≤ 1 ∧ [0, 1, 2, 2, 1, 3, 4, 6, 5, 7, 8, 900].length = 12 ∧ 12 % 3 = 0 ∧
      901 ≤ 2 ^ 32 ∧ ∀ v ∈ [0, 1, 2, 2, 1, 3, 4, 6, 5, 7, 8, 900], v < 901) ∧
    ∃ bytes,
      meshopt_encodeIndexBuffer 1 (meshopt_encodeIndexBufferBound 12 901)
        [0, 1, 2, 2, 1, 3, 4, 6, 5, 7, 8, 900] 12 = some bytes ∧
      meshopt_decodeIndexBuffer 12 4 bytes = .ok [0, 1, 2, 2, 1, 3, 4, 6, 5, 7, 8, 900] ∧
      returnCode (meshopt_decodeIndexBuffer 12 4 bytes) = 0 :=
  ⟨⟨by decide, by decide, by decide, by decide, by decide⟩,
    index_codec_round_trip 1 [0, 1, 2, 2, 1, 3, 4, 6, 5, 7, 8, 900] 12 901
      (by decide) (by decide) (by decide) (by decide) (by decide)⟩

/-- C3: bound sufficiency.  For a vertex buffer of `count` records and an index buffer of
`index_count` indices below `vertex_count`, encoding into a buffer of exactly
`meshopt_encodeVertexBufferBound count stride` bytes (respectively
`meshopt_encodeIndexBufferBound index_count vertex_count` bytes) succeeds, and the returned
size is positive and at most the bound. -/
theorem encode_bound_sufficient (vb : List (List Nat)) (count stride : Nat)
    (version : Nat) (ib : List Nat) (index_count vertex_count : Nat)
    (hcount : vb.length = count) (hicount : ib.length = index_count)
    (hib : ∀ v ∈ ib, v < vertex_count) :
    ((meshopt_encodeVertexBuffer (meshopt_encodeVertexBufferBound count stride)
        vb count stride).isSome = true ∧
      0 < encodedSize (meshopt_encodeVertexBuffer
        (meshopt_encodeVertexBufferBound count stride) vb count stride) ∧
      encodedSize (meshopt_encodeVertexBuffer
        (meshopt_encodeVertexBufferBound count stride) vb count stride)
        ≤ meshopt_encodeVertexBufferBound count stride) ∧
    ((meshopt_encodeIndexBuffer version
        (meshopt_encodeIndexBufferBound index_count vertex_count) ib index_count).isSome = true ∧
      0 < encodedSize (meshopt_encodeIndexBuffer version
        (meshopt_encodeIndexBufferBound index_count vertex_count) ib index_count) ∧
      encodedSize (meshopt_encodeIndexBuffer version
        (meshopt_encodeIndexBufferBound index_count vertex_count) ib index_count)
        ≤ meshopt_encodeIndexBufferBound index_count vertex_count) := by
  rw [vertex_encode_fits vb count stride hcount,
    index_encode_fits version ib index_count vertex_count hicount hib]
  refine ⟨⟨rfl, ?_, length_encodeVertexBlob_le vb count stride hcount⟩,
    ⟨rfl, ?_, length_encodeIndexBlob_le version ib index_count vertex_count hicount hib⟩⟩
  · simp [encodedSize, encodeVertexBlob]
  · simp [encodedSize, encodeIndexBlob]

theorem encode_bound_sufficient_witness :
    ([[1, 2, 3, 4], [1, 2, 3, 5], [1, 200, 4, 5]].length = 3 ∧
      [0, 1, 2, 2, 1, 0].length = 6 ∧ ∀ v ∈ [0, 1, 2, 2, 1, 0], v < 3) ∧
    ((meshopt_encodeVertexBuffer (meshopt_encodeVertexBufferBound 3 4)
        [[1, 2, 3, 4], [1, 2, 3, 5], [1, 200, 4, 5]] 3 4).isSome = true ∧
      0 < encodedSize (meshopt_encodeVertexBuffer
        (meshopt_encodeVertexBufferBound 3 4) [[1, 2, 3, 4], [1, 2, 3, 5], [1, 200, 4, 5]] 3 4) ∧
      encodedSize (meshopt_encodeVertexBuffer
        (meshopt_encodeVertexBufferBound 3 4) [[1, 2, 3, 4], [1, 2, 3, 5], [1, 200, 4, 5]] 3 4)
        ≤ meshopt_encodeVertexBufferBound 3 4) ∧
    ((meshopt_encodeIndexBuffer 1
        (meshopt_encodeIndexBufferBound 6 3) [0, 1, 2, 2, 1, 0] 6).isSome = true ∧
      0 < encodedSize (meshopt_encodeIndexBuffer 1
        (meshopt_encodeIndexBufferBound 6 3) [0, 1, 2, 2, 1, 0] 6) ∧
      encodedSize (meshopt_encodeIndexBuffer 1
        (meshopt_encodeIndexBufferBound 6 3) [0, 1, 2, 2, 1, 0] 6)
        ≤ meshopt_encodeIndexBufferBound 6 3) :=
  ⟨⟨by decide, by decide, by decide⟩,
    encode_bound_sufficient [[1, 2, 3, 4], [1, 2, 3, 5], [1, 200, 4, 5]] 3 4 1
      [0, 1, 2, 2, 1, 0] 6 3 (by decide) (by decide) (by decide)⟩

end CodecBench
